import Mathlib

/-!
# Verification development for the networked object store

Shallow embedding of two parts of the repository:

* `src/LRU.cpp`: the class template `LRUCache<Key, Value>`, a `std::list` of
  key/value pairs (the recency order) together with a `std::unordered_map`
  from keys to list iterators (the lookup index);
* `src/storage.cpp`: `StorageServer::handle_client` and the four request
  handlers it dispatches to, over the frames of `src/协议.cpp`.

A `std::list` iterator is a stable reference to one list node.  Each node
therefore carries the address it was allocated at, and the index stores such
addresses.  Operations whose C++ behaviour is undefined (dereferencing an
iterator that is not in the list, stepping back from `end()` of an empty
list, `pop_back` on an empty list) return `none`.
-/

set_option linter.unusedSectionVars false

namespace LRU

/-- One node of `cache_list_`: a `std::pair<Key, Value>` living at address `addr`. -/
structure Node (K V : Type) where
  addr : Nat
  first : K
  second : V
deriving DecidableEq, Repr

/-- The data members of `LRUCache<Key, Value>` (the mutex apart), plus the next
address the allocator hands out for a list node. -/
structure LRUCache (K V : Type) where
  capacity_ : Nat
  cache_list_ : List (Node K V)
  cache_map_ : List (K × Nat)
  next_addr : Nat
deriving DecidableEq, Repr

section Containers

variable {K V : Type} [DecidableEq K]

/-- Embedding of `cache_map_.find(key)`: the iterator stored under `key`, `none` for `end()`. -/
def mapFind (m : List (K × Nat)) (key : K) : Option Nat :=
  match m with
  | [] => none
  | (k, it) :: rest => if k = key then some it else mapFind rest key

/-- Embedding of `cache_map_.erase(key)`. -/
def mapErase (m : List (K × Nat)) (key : K) : List (K × Nat) :=
  m.filter (fun p => decide (p.1 ≠ key))

/-- Embedding of `cache_map_[key] = it`: overwrite the mapped iterator, inserting the key when new. -/
def mapAssign (m : List (K × Nat)) (key : K) (it : Nat) : List (K × Nat) :=
  match mapFind m key with
  | some _ => m.map (fun p => if p.1 = key then (key, it) else p)
  | none => (key, it) :: m

/-- Dereference a list iterator: the node at address `it`, if it is in the list. -/
def nodeAt (l : List (Node K V)) (it : Nat) : Option (Node K V) :=
  l.find? (fun n => decide (n.addr = it))

/-- Embedding of `cache_list_.erase(it)`; undefined when `it` is not an iterator of the list. -/
def listErase (l : List (Node K V)) (it : Nat) : Option (List (Node K V)) :=
  match nodeAt l it with
  | none => none
  | some _ => some (l.filter (fun n => decide (n.addr ≠ it)))

/-- Embedding of `cache_list_.splice(cache_list_.begin(), cache_list_, it)`: relink the node
at `it` in front of all others. -/
def spliceFront (l : List (Node K V)) (it : Nat) : Option (List (Node K V)) :=
  match nodeAt l it with
  | none => none
  | some n => some (n :: l.filter (fun m => decide (m.addr ≠ it)))

/-- Embedding of `it->second = value` on a list iterator. -/
def setSecond (l : List (Node K V)) (it : Nat) (value : V) : Option (List (Node K V)) :=
  match nodeAt l it with
  | none => none
  | some _ => some (l.map (fun n => if n.addr = it then Node.mk n.addr n.first value else n))

end Containers

namespace LRUCache

variable {K V : Type} [DecidableEq K]

/-- Embedding of `LRUCache(size_t capacity)`. -/
def new (capacity : Nat) : LRUCache K V :=
  LRUCache.mk capacity [] [] 0

/-- Embedding of `bool get(const Key&, Value&)`: the new state and, on a hit, the value
written to the out-parameter (`none` is the `false` return). -/
def get (c : LRUCache K V) (key : K) : Option (LRUCache K V × Option V) :=
  match mapFind c.cache_map_ key with
  | none => some (c, none)
  | some it =>
    match spliceFront c.cache_list_ it with
    | none => none
    | some l =>
      match nodeAt l it with
      | none => none
      | some n => some (LRUCache.mk c.capacity_ l c.cache_map_ c.next_addr, some n.second)

/-- The body of the eviction branch of `put` (lines 45-48): step back from
`end()`, erase that node's key from the index, `pop_back`. -/
def evict (c : LRUCache K V) : Option (LRUCache K V) :=
  match c.cache_list_.getLast? with
  | none => none
  | some last =>
    some (LRUCache.mk c.capacity_ c.cache_list_.dropLast
      (mapErase c.cache_map_ last.first) c.next_addr)

/-- Lines 51-52 of `put`: `push_front({key, value})` and
`cache_map_[key] = cache_list_.begin()`. -/
def pushFront (c : LRUCache K V) (key : K) (value : V) : LRUCache K V :=
  LRUCache.mk c.capacity_ (Node.mk c.next_addr key value :: c.cache_list_)
    (mapAssign c.cache_map_ key c.next_addr) (c.next_addr + 1)

/-- Embedding of `void put(const Key&, const Value&)`. -/
def put (c : LRUCache K V) (key : K) (value : V) : Option (LRUCache K V) :=
  match mapFind c.cache_map_ key with
  | some it =>
    match setSecond c.cache_list_ it value with
    | none => none
    | some l =>
      match spliceFront l it with
      | none => none
      | some l2 => some (LRUCache.mk c.capacity_ l2 c.cache_map_ c.next_addr)
  | none =>
    if c.cache_map_.length ≥ c.capacity_ then
      match evict c with
      | none => none
      | some c1 => some (pushFront c1 key value)
    else
      some (pushFront c key value)

/-- Embedding of `void erase(const Key&)`. -/
def erase (c : LRUCache K V) (key : K) : Option (LRUCache K V) :=
  match mapFind c.cache_map_ key with
  | none => some c
  | some it =>
    match listErase c.cache_list_ it with
    | none => none
    | some l => some (LRUCache.mk c.capacity_ l (mapErase c.cache_map_ key) c.next_addr)

/-- Embedding of `void clear()`. -/
def clear (c : LRUCache K V) : LRUCache K V :=
  LRUCache.mk c.capacity_ [] [] c.next_addr

/-- Embedding of `size_t size() const`. -/
def size (c : LRUCache K V) : Nat :=
  c.cache_map_.length

/-- Embedding of `std::vector<Key> keys() const`. -/
def keys (c : LRUCache K V) : List K :=
  c.cache_map_.map Prod.fst

end LRUCache

/-- One call on the public interface of the cache. -/
inductive Op (K V : Type) where
  | get (key : K)
  | put (key : K) (value : V)
  | erase (key : K)
  | clear
deriving DecidableEq, Repr

variable {K V : Type} [DecidableEq K]

/-- Perform one call, keeping the state only. -/
def step (c : LRUCache K V) : Op K V → Option (LRUCache K V)
  | Op.get key => (c.get key).map Prod.fst
  | Op.put key value => c.put key value
  | Op.erase key => c.erase key
  | Op.clear => some c.clear

/-- Perform a sequence of calls, first to last. -/
def run (c : LRUCache K V) : List (Op K V) → Option (LRUCache K V)
  | [] => some c
  | op :: ops =>
    match step c op with
    | none => none
    | some c1 => run c1 ops

/-- The index entry a list node should have: its key and its address. -/
def entryOf (n : Node K V) : K × Nat := (n.first, n.addr)

/-- The index entries of all nodes of a list, in list order. -/
def entries (l : List (Node K V)) : List (K × Nat) := l.map entryOf

/-- The representation invariant of the class: index and recency list describe
the same key/iterator pairs, no key and no node occurs twice in the list, and
every node was handed out by the allocator. -/
structure Inv (c : LRUCache K V) : Prop where
  index : c.cache_map_.Perm (entries c.cache_list_)
  keys_nodup : (c.cache_list_.map Node.first).Nodup
  addrs_nodup : (c.cache_list_.map Node.addr).Nodup
  addrs_lt : ∀ n ∈ c.cache_list_, n.addr < c.next_addr

/-- A state satisfying the representation invariant and the capacity bound. -/
structure Good (c : LRUCache K V) : Prop where
  inv : Inv c
  bounded : c.cache_map_.length ≤ c.capacity_

/-- Whether a call is a `get` or a `put`. -/
def Op.isGetOrPut : Op K V → Bool
  | Op.get _ => true
  | Op.put _ _ => true
  | _ => false

/-- The key a call touches in state `c`, following the specification: each
`put` touches its key, a `get` touches its key when it hits. -/
def touched (c : LRUCache K V) : Op K V → Option K
  | Op.put key _ => some key
  | Op.get key =>
    match c.get key with
    | some (_, some _) => some key
    | _ => none
  | _ => none

/-- The touches made by a sequence of calls started in state `c`, most recent
first, in front of the earlier touches `log`. -/
def touchLog (c : LRUCache K V) (log : List K) : List (Op K V) → List K
  | [] => log
  | op :: ops =>
    match step c op with
    | none => log
    | some c1 => touchLog c1 ((touched c op).toList ++ log) ops

/-- The distinct keys of a most-recent-first log, ordered by their most recent
touch. -/
def recentDistinct : List K → List K
  | [] => []
  | k :: log => k :: (recentDistinct log).filter (fun j => decide (j ≠ k))

/-- The keys of the `put` calls of a sequence, in call order. -/
def putKeys : List (Op K V) → List K
  | [] => []
  | Op.put key _ :: ops => key :: putKeys ops
  | _ :: ops => putKeys ops

/-- The number of distinct keys put by a sequence of calls. -/
def distinctPuts (ops : List (Op K V)) : Nat :=
  (putKeys ops).dedup.length

/-- The `n` most recently touched distinct keys after the calls `ops` on an
empty cache of the given capacity. -/
def mostRecent (capacity : Nat) (ops : List (Op K V)) (n : Nat) : List K :=
  (recentDistinct (touchLog (LRUCache.new capacity) [] ops)).take n

/-- The ghost state of the recency argument: the list holds the first
`capacity_` keys of the recency order of the touches so far, and the keys
touched so far are the keys put so far. -/
structure Track (c : LRUCache K V) (log puts : List K) : Prop where
  good : Good c
  keys_eq : c.cache_list_.map Node.first = (recentDistinct log).take c.capacity_
  same : ∀ k, k ∈ log ↔ k ∈ puts

end LRU

namespace Storage

/-- A `std::string`, a `std::vector<char>` or a `char` buffer: a sequence of `char`. -/
abbrev Bytes := List Char

/-- The terminator of a C string. -/
def NUL : Char := Char.ofNat 0

/-- Embedding of `enum StorageOperation` of `src/协议.cpp`; a request carries the enum as an
integer that the peer chose. -/
def STORE_FILE : Int := 1

/-- The enumerator `RETRIEVE_FILE = 2`. -/
def RETRIEVE_FILE : Int := 2

/-- The enumerator `DELETE_FILE = 3`. -/
def DELETE_FILE : Int := 3

/-- The enumerator `LIST_FILES = 4`. -/
def LIST_FILES : Int := 4

/-- Embedding of `struct StorageRequest`; `filename` is the `char[256]` field, `after` the
bytes that follow that field in memory (`data_size`, `reserved`, padding and
beyond), which only a field without NUL lets the server read. -/
structure StorageRequest where
  op : Int
  filename : Bytes
  data_size : Nat
  after : Bytes
deriving DecidableEq, Repr

/-- Embedding of `struct StorageResponse`; `message` is the text `snprintf` left in the
zeroed `char[256]` field. -/
structure StorageResponse where
  success : Bool
  message : String
  data_size : Nat
deriving DecidableEq, Repr

/-- Embedding of `sizeof(StorageRequest)` under the LP64 layout. -/
def sizeof_StorageRequest : Int := 280

/-- Embedding of `struct FileMetadata` of `src/file_manager.cpp`. -/
structure FileMetadata where
  filename : Bytes
  size : Nat
  create_time : Int
  modify_time : Int
  storage_path : Bytes
  replicas : List Bytes
deriving DecidableEq, Repr

/-- The member functions of `class FileManager` that the server calls.  They
are declared in `src/file_manager.cpp` and defined elsewhere, so the server is
embedded over an arbitrary implementation acting on a state `σ`. -/
structure FileManager (σ : Type) where
  store_file : σ → Bytes → Bytes → σ × Bool
  retrieve_file : σ → Bytes → σ × Bool × Bytes
  delete_file : σ → Bytes → σ × Bool
  get_file_metadata : σ → Bytes → σ × FileMetadata
  list_files : σ → σ × List Bytes
  add_replica : σ → Bytes → Bytes → σ × Bool
  remove_replica : σ → Bytes → Bytes → σ × Bool

/-- A call of a `FileManager` member function, as recorded in the call log. -/
inductive Call where
  | store_file (filename data : Bytes)
  | retrieve_file (filename : Bytes)
  | delete_file (filename : Bytes)
  | get_file_metadata (filename : Bytes)
  | list_files
  | add_replica (filename node : Bytes)
  | remove_replica (filename node : Bytes)
deriving DecidableEq, Repr

/-- One `send` on the client socket: a response header or raw payload bytes. -/
inductive Write where
  | header (response : StorageResponse)
  | payload (bytes : Bytes)
deriving DecidableEq, Repr

/-- What the peer does on one accepted connection: the return value of the
header `recv`, the request it left in the buffer, and the outcomes of the
payload `recv` calls in order (`none`: the call returns -1; `some chunk`:
the bytes of `chunk` are available, none at all when the peer has closed).
After the listed outcomes the peer has closed the connection. -/
structure Connection where
  bytes_read : Int
  request : StorageRequest
  payload : List (Option Bytes)
deriving DecidableEq, Repr

/-- The server-side state one connection acts on: `file_manager_`, the log of
calls made on it, the `send` calls on `client_fd`, and whether `client_fd`
was closed. -/
structure World (σ : Type) where
  fm : σ
  calls : List Call
  sent : List Write
  closed : Bool

/-- The state in which a worker picks up a connection. -/
def World.init {σ : Type} (fm : σ) : World σ :=
  World.mk fm [] [] false

/-- Conversion of a `char` array to `std::string`: the chars before the first
NUL, reading on behind the array when it holds none. -/
def c_str (buffer after : Bytes) : Bytes :=
  (buffer ++ after).takeWhile (fun ch => decide (ch ≠ NUL))

/-- Embedding of `std::to_string(size_t)`. -/
def to_string (n : Nat) : Bytes :=
  (Nat.repr n).toList

/-- Embedding of `recv(client_fd, buf, len, 0)` on the payload: the return value and the
bytes stored, at most `len` of those available. -/
def recv (outcome : Option (Option Bytes)) (len : Nat) : Int × Bytes :=
  match outcome with
  | none => (0, [])
  | some none => (-1, [])
  | some (some chunk) => (((chunk.take len).length : Nat), chunk.take len)

section Server

variable {σ : Type}

/-- Embedding of `send_response`: one `send` of the whole response struct. -/
def send_response (w : World σ) (response : StorageResponse) : World σ :=
  World.mk w.fm w.calls (w.sent ++ [Write.header response]) w.closed

/-- Embedding of `send(client_fd, data, size, 0)` of payload bytes. -/
def send (w : World σ) (bytes : Bytes) : World σ :=
  World.mk w.fm w.calls (w.sent ++ [Write.payload bytes]) w.closed

/-- Embedding of `close(client_fd)`. -/
def close (w : World σ) : World σ :=
  World.mk w.fm w.calls w.sent true

/-- The receive loop of `handle_store_request` (lines 184-195), started with
`data` holding the `total_received` bytes so far: the complete payload, or
`none` when a `recv` returned a value `<= 0` first.  The allocation of the
buffer, `std::vector<char> data(request.data_size)`, is taken to succeed. -/
def receive_payload (data_size : Nat) : List (Option Bytes) → Bytes → Option Bytes
  | [], data =>
    if data.length < data_size then
      (if (recv none (data_size - data.length)).1 ≤ 0 then none else some data)
    else some data
  | outcome :: rest, data =>
    if data.length < data_size then
      (if (recv (some outcome) (data_size - data.length)).1 ≤ 0 then none
      else receive_payload data_size rest (data ++ (recv (some outcome) (data_size - data.length)).2))
    else some data

/-- Embedding of `create_replicas`: one `add_replica` per configured peer. -/
def create_replicas (fmi : FileManager σ) (w : World σ) (filename : Bytes) :
    List Bytes → World σ
  | [] => w
  | node :: rest =>
    create_replicas fmi
      (World.mk (fmi.add_replica w.fm filename node).1
        (w.calls ++ [Call.add_replica filename node]) w.sent w.closed)
      filename rest

/-- Embedding of `delete_replicas`: one `remove_replica` per configured peer. -/
def delete_replicas (fmi : FileManager σ) (w : World σ) (filename : Bytes) :
    List Bytes → World σ
  | [] => w
  | node :: rest =>
    delete_replicas fmi
      (World.mk (fmi.remove_replica w.fm filename node).1
        (w.calls ++ [Call.remove_replica filename node]) w.sent w.closed)
      filename rest

/-- Embedding of `handle_store_request`. -/
def handle_store_request (fmi : FileManager σ) (peers : List Bytes) (w : World σ)
    (conn : Connection) (response : StorageResponse) : World σ :=
  match receive_payload conn.request.data_size conn.payload [] with
  | none =>
    send_response w (StorageResponse.mk false "Failed to receive file data" response.data_size)
  | some data =>
    let filename := c_str conn.request.filename conn.request.after
    let r := fmi.store_file w.fm filename data
    let w1 := World.mk r.1 (w.calls ++ [Call.store_file filename data]) w.sent w.closed
    if r.2 then
      send_response (create_replicas fmi w1 filename peers)
        (StorageResponse.mk true "File stored successfully" data.length)
    else
      send_response w1 (StorageResponse.mk false "Failed to store file" response.data_size)

/-- Embedding of `handle_retrieve_request`. -/
def handle_retrieve_request (fmi : FileManager σ) (w : World σ)
    (conn : Connection) (response : StorageResponse) : World σ :=
  let filename := c_str conn.request.filename conn.request.after
  let r := fmi.retrieve_file w.fm filename
  let w1 := World.mk r.1 (w.calls ++ [Call.retrieve_file filename]) w.sent w.closed
  if r.2.1 then
    send (send_response w1 (StorageResponse.mk true "File retrieved successfully" r.2.2.length))
      r.2.2
  else
    send_response w1 (StorageResponse.mk false "File not found" response.data_size)

/-- Embedding of `handle_delete_request`. -/
def handle_delete_request (fmi : FileManager σ) (peers : List Bytes) (w : World σ)
    (conn : Connection) (response : StorageResponse) : World σ :=
  let filename := c_str conn.request.filename conn.request.after
  let r := fmi.delete_file w.fm filename
  let w1 := World.mk r.1 (w.calls ++ [Call.delete_file filename]) w.sent w.closed
  if r.2 then
    send_response (delete_replicas fmi w1 filename peers)
      (StorageResponse.mk true "File deleted successfully" response.data_size)
  else
    send_response w1 (StorageResponse.mk false "Failed to delete file" response.data_size)

/-- The loop of `handle_list_request` (lines 262-265): append one line per
file to `file_list`, asking for each file's metadata. -/
def build_file_list (fmi : FileManager σ) (w : World σ) (file_list : Bytes) :
    List Bytes → World σ × Bytes
  | [] => (w, file_list)
  | filename :: rest =>
    let r := fmi.get_file_metadata w.fm filename
    build_file_list fmi
      (World.mk r.1 (w.calls ++ [Call.get_file_metadata filename]) w.sent w.closed)
      (file_list ++ (filename ++ " (".toList ++ to_string r.2.size ++ " bytes)\n".toList))
      rest

/-- Embedding of `handle_list_request`. -/
def handle_list_request (fmi : FileManager σ) (w : World σ)
    (_conn : Connection) (_response : StorageResponse) : World σ :=
  let r := fmi.list_files w.fm
  let w1 := World.mk r.1 (w.calls ++ [Call.list_files]) w.sent w.closed
  let built := build_file_list fmi w1 [] r.2
  send
    (send_response built.1
      (StorageResponse.mk true (toString r.2.length ++ " files found") built.2.length))
    built.2

/-- Embedding of `handle_client`. -/
def handle_client (fmi : FileManager σ) (peers : List Bytes) (w : World σ)
    (conn : Connection) : World σ :=
  if conn.bytes_read ≠ sizeof_StorageRequest then
    close w
  else
    let response := StorageResponse.mk false "" 0
    if conn.request.op = STORE_FILE then
      close (handle_store_request fmi peers w conn response)
    else if conn.request.op = RETRIEVE_FILE then
      close (handle_retrieve_request fmi w conn response)
    else if conn.request.op = DELETE_FILE then
      close (handle_delete_request fmi peers w conn response)
    else if conn.request.op = LIST_FILES then
      close (handle_list_request fmi w conn response)
    else
      close (send_response w (StorageResponse.mk false "Invalid operation" response.data_size))

end Server

/-- Modelled from the spec: the member functions of `FileManager` are declared
in `src/file_manager.cpp` and defined outside `src/`.  This in-memory
implementation (a table from filenames to contents, as in section 4.2) serves
to instantiate statements that hold for every implementation. -/
def memoryFileManager : FileManager (List (Bytes × Bytes)) where
  store_file := fun fm filename data =>
    ((filename, data) :: fm.filter (fun p => decide (p.1 ≠ filename)), true)
  retrieve_file := fun fm filename =>
    match fm.lookup filename with
    | some data => (fm, true, data)
    | none => (fm, false, [])
  delete_file := fun fm filename =>
    (fm.filter (fun p => decide (p.1 ≠ filename)), (fm.lookup filename).isSome)
  get_file_metadata := fun fm filename =>
    (fm, FileMetadata.mk filename ((fm.lookup filename).elim 0 List.length) 0 0 filename [])
  list_files := fun fm => (fm, fm.map Prod.fst)
  add_replica := fun fm filename _ => (fm, (fm.lookup filename).isSome)
  remove_replica := fun fm filename _ => (fm, (fm.lookup filename).isSome)

/-- A `char[256]` filename field holding `name` and NUL in every other position. -/
def filename_field (name : Bytes) : Bytes :=
  name ++ List.replicate (256 - name.length) NUL

/-- A file table with one file, `a.txt`, holding `hello`. -/
def sampleFiles : List (Bytes × Bytes) :=
  [("a.txt".toList, "hello".toList)]

/-- A file table whose only file has a name of 257 chars. -/
def longNameFiles : List (Bytes × Bytes) :=
  [(List.replicate 256 'a' ++ ['b'], "hello".toList)]

/-- A complete STORE request of 5 bytes arriving in two chunks. -/
def completeStore : Connection :=
  Connection.mk 280 (StorageRequest.mk 1 (filename_field "b.txt".toList) 5 [])
    [some "ab".toList, some "cde".toList]

/-- A RETRIEVE request whose filename field holds 256 times `a` and no NUL;
the byte behind the field is `b`, followed by a NUL. -/
def unterminatedRetrieve : Connection :=
  Connection.mk 280 (StorageRequest.mk 2 (List.replicate 256 'a') 0 ['b', NUL]) []

end Storage

namespace LRU

section Lemmas

variable {K V : Type} [DecidableEq K]

theorem mapFind_mem {m : List (K × Nat)} {key : K} {it : Nat}
    (h : mapFind m key = some it) : (key, it) ∈ m := by
  induction m with
  | nil => simp [mapFind] at h
  | cons p rest ih =>
    obtain ⟨k, a⟩ := p
    by_cases hk : k = key
    · simp [mapFind, hk] at h
      simp [hk, h]
    · simp [mapFind, hk] at h
      exact List.mem_cons_of_mem _ (ih h)

theorem mapFind_eq_none {m : List (K × Nat)} {key : K} :
    mapFind m key = none ↔ key ∉ m.map Prod.fst := by
  induction m with
  | nil => simp [mapFind]
  | cons p rest ih =>
    obtain ⟨k, a⟩ := p
    by_cases hk : k = key
    · simp [mapFind, hk]
    · simp only [mapFind, hk, if_false, ih, List.map_cons, List.mem_cons, not_or]
      constructor
      · intro h; exact ⟨fun e => hk e.symm, h⟩
      · intro h; exact h.2

theorem mapFind_of_mem {m : List (K × Nat)} {key : K} {it : Nat}
    (hd : (m.map Prod.fst).Nodup) (h : (key, it) ∈ m) : mapFind m key = some it := by
  induction m with
  | nil => simp at h
  | cons p rest ih =>
    obtain ⟨k, a⟩ := p
    simp only [List.map_cons, List.nodup_cons] at hd
    rcases List.mem_cons.1 h with h1 | h1
    · cases h1; simp [mapFind]
    · have hne : k ≠ key := by
        intro e
        apply hd.1
        rw [e]
        exact List.mem_map_of_mem Prod.fst h1
      simp [mapFind, hne, ih hd.2 h1]

theorem nodeAt_mem {l : List (Node K V)} {it : Nat} {n : Node K V}
    (h : nodeAt l it = some n) : n ∈ l ∧ n.addr = it := by
  refine ⟨List.mem_of_find?_eq_some h, ?_⟩
  have := List.find?_some h
  simpa using this

theorem nodeAt_of_mem {l : List (Node K V)} {n : Node K V}
    (hd : (l.map Node.addr).Nodup) (h : n ∈ l) : nodeAt l n.addr = some n := by
  induction l with
  | nil => simp at h
  | cons a t ih =>
    simp only [List.map_cons, List.nodup_cons] at hd
    rcases List.mem_cons.1 h with h1 | h1
    · subst h1; simp [nodeAt]
    · have hne : a.addr ≠ n.addr := by
        intro e
        apply hd.1
        rw [e]
        exact List.mem_map_of_mem Node.addr h1
      have := ih hd.2 h1
      simp only [nodeAt] at this ⊢
      simp [List.find?_cons, hne, this]

theorem entries_keys (l : List (Node K V)) : (entries l).map Prod.fst = l.map Node.first := by
  simp [entries, entryOf, Function.comp_def]

theorem entries_addrs (l : List (Node K V)) : (entries l).map Prod.snd = l.map Node.addr := by
  simp [entries, entryOf, Function.comp_def]

/-- Two nodes of a duplicate-free list with the same key are the same node. -/
theorem eq_of_first_eq {l : List (Node K V)} (hd : (l.map Node.first).Nodup)
    {a b : Node K V} (ha : a ∈ l) (hb : b ∈ l) (h : a.first = b.first) : a = b :=
  List.inj_on_of_nodup_map hd ha hb h

/-- Two nodes of a list with the same address are the same node. -/
theorem eq_of_addr_eq {l : List (Node K V)} (hd : (l.map Node.addr).Nodup)
    {a b : Node K V} (ha : a ∈ l) (hb : b ∈ l) (h : a.addr = b.addr) : a = b :=
  List.inj_on_of_nodup_map hd ha hb h

theorem Inv.map_keys_nodup {c : LRUCache K V} (hc : Inv c) :
    (c.cache_map_.map Prod.fst).Nodup := by
  have := (hc.index.map Prod.fst).nodup_iff
  rw [this, entries_keys]
  exact hc.keys_nodup

theorem Inv.length_eq {c : LRUCache K V} (hc : Inv c) :
    c.cache_map_.length = c.cache_list_.length := by
  have := hc.index.length_eq
  simpa [entries] using this

/-- Under the invariant a successful `find` yields a valid iterator, pointing
at the node that holds the key. -/
theorem Inv.find_some {c : LRUCache K V} (hc : Inv c) {key : K} {it : Nat}
    (h : mapFind c.cache_map_ key = some it) :
    ∃ n, n ∈ c.cache_list_ ∧ n.first = key ∧ n.addr = it ∧ nodeAt c.cache_list_ it = some n := by
  have hm := hc.index.mem_iff.1 (mapFind_mem h)
  simp only [entries, entryOf, List.mem_map, Prod.mk.injEq] at hm
  obtain ⟨n, hn, hk, ha⟩ := hm
  refine ⟨n, hn, hk, ha, ?_⟩
  rw [← ha]
  exact nodeAt_of_mem hc.addrs_nodup hn

theorem Inv.find_none {c : LRUCache K V} (hc : Inv c) {key : K}
    (h : mapFind c.cache_map_ key = none) : key ∉ c.cache_list_.map Node.first := by
  rw [mapFind_eq_none] at h
  intro hk
  apply h
  rw [← entries_keys] at hk
  exact (hc.index.map Prod.fst).mem_iff.2 hk

theorem Inv.find_of_mem {c : LRUCache K V} (hc : Inv c) {n : Node K V}
    (hn : n ∈ c.cache_list_) : mapFind c.cache_map_ n.first = some n.addr := by
  apply mapFind_of_mem hc.map_keys_nodup
  apply hc.index.mem_iff.2
  simp only [entries, List.mem_map]
  exact ⟨n, hn, rfl⟩

/-- Removing the node at an address is removing the node with that node's key. -/
theorem filter_addr_eq_filter_first {l : List (Node K V)}
    (hk : (l.map Node.first).Nodup) (ha : (l.map Node.addr).Nodup)
    {n : Node K V} (hn : n ∈ l) :
    l.filter (fun m => decide (m.addr ≠ n.addr)) = l.filter (fun m => decide (m.first ≠ n.first)) := by
  apply List.filter_congr
  intro m hm
  by_cases e : m = n
  · subst e; simp
  · have h1 : m.addr ≠ n.addr := fun h => e (eq_of_addr_eq ha hm hn h)
    have h2 : m.first ≠ n.first := fun h => e (eq_of_first_eq hk hm hn h)
    simp [h1, h2]

/-- Relinking a node to the front permutes the list. -/
theorem perm_cons_filter {l : List (Node K V)} (hk : (l.map Node.first).Nodup)
    {n : Node K V} (hn : n ∈ l) :
    (n :: l.filter (fun m => decide (m.first ≠ n.first))).Perm l := by
  induction l with
  | nil => simp at hn
  | cons a t ih =>
    simp only [List.map_cons, List.nodup_cons] at hk
    by_cases e : a = n
    · subst e
      have : t.filter (fun m => decide (m.first ≠ a.first)) = t := by
        rw [List.filter_eq_self]
        intro m hm
        have : m.first ≠ a.first := by
          intro h
          apply hk.1
          rw [← h]
          exact List.mem_map_of_mem Node.first hm
        simp [this]
      simp only [ne_eq, decide_not] at this
      simp [List.filter_cons, this]
    · have hn2 : n ∈ t := by
        rcases List.mem_cons.1 hn with h | h
        · exact absurd h.symm e
        · exact h
      have hne : a.first ≠ n.first := by
        intro h
        apply hk.1
        rw [h]
        exact List.mem_map_of_mem Node.first hn2
      have := ih hk.2 hn2
      simp only [List.filter_cons, hne, ne_eq, not_false_eq_true, decide_True, if_true]
      exact (List.Perm.swap a n _).trans (this.cons a)

end Lemmas

section OpLemmas

variable {K V : Type} [DecidableEq K]

/-- The invariant only depends on the key/address pairs of the list nodes, up
to their order. -/
theorem Inv.of_entries_perm {c : LRUCache K V} (hc : Inv c) {l : List (Node K V)}
    (hp : (entries l).Perm (entries c.cache_list_)) :
    Inv (LRUCache.mk c.capacity_ l c.cache_map_ c.next_addr) := by
  refine ⟨hc.index.trans hp.symm, ?_, ?_, ?_⟩
  · have := (hp.map Prod.fst).nodup_iff
    rw [entries_keys, entries_keys] at this
    exact this.2 hc.keys_nodup
  · have := (hp.map Prod.snd).nodup_iff
    rw [entries_addrs, entries_addrs] at this
    exact this.2 hc.addrs_nodup
  · intro n hn
    have h1 : entryOf n ∈ entries l := List.mem_map_of_mem entryOf hn
    have h2 := hp.mem_iff.1 h1
    simp only [entries, List.mem_map] at h2
    obtain ⟨m, hm, he⟩ := h2
    have : m.addr = n.addr := congrArg Prod.snd he
    rw [← this]
    exact hc.addrs_lt m hm

/-- Moving the node of a key to the front, possibly with a new value, keeps
the invariant. -/
theorem Inv.relink {c : LRUCache K V} (hc : Inv c) {n : Node K V} (hn : n ∈ c.cache_list_)
    (v : V) :
    Inv (LRUCache.mk c.capacity_
      (Node.mk n.addr n.first v :: c.cache_list_.filter (fun m => decide (m.first ≠ n.first)))
      c.cache_map_ c.next_addr) := by
  apply hc.of_entries_perm
  have := (perm_cons_filter hc.keys_nodup hn).map entryOf
  simpa [entries, entryOf] using this

theorem nodeAt_map_setSecond {l : List (Node K V)} {it : Nat} {n : Node K V} (v : V)
    (h : nodeAt l it = some n) :
    nodeAt (l.map (fun m => if m.addr = it then Node.mk m.addr m.first v else m)) it
      = some (Node.mk n.addr n.first v) := by
  induction l with
  | nil => simp [nodeAt] at h
  | cons a t ih =>
    by_cases e : a.addr = it
    · simp only [nodeAt, List.find?_cons, e, decide_True] at h
      cases h
      simp [nodeAt, List.find?_cons, e]
    · simp only [nodeAt, List.find?_cons, e, decide_False] at h
      have := ih h
      simp only [nodeAt] at this
      simp [nodeAt, List.find?_cons, e, this]

theorem filter_map_setSecond (l : List (Node K V)) (it : Nat) (v : V) :
    (l.map (fun m => if m.addr = it then Node.mk m.addr m.first v else m)).filter
        (fun m => decide (m.addr ≠ it))
      = l.filter (fun m => decide (m.addr ≠ it)) := by
  induction l with
  | nil => rfl
  | cons a t ih =>
    simp only [ne_eq, decide_not] at ih
    by_cases e : a.addr = it <;> simp [List.filter_cons, e, ih]

/-- A hit of `get`: the node of the key is relinked to the front and its
value is returned; the index is untouched. -/
theorem get_hit {c : LRUCache K V} (hc : Inv c) {key : K} {it : Nat}
    (h : mapFind c.cache_map_ key = some it) :
    ∃ n, n ∈ c.cache_list_ ∧ n.first = key ∧ n.addr = it ∧
      c.get key = some (LRUCache.mk c.capacity_
        (n :: c.cache_list_.filter (fun m => decide (m.first ≠ key))) c.cache_map_ c.next_addr,
        some n.second) := by
  obtain ⟨n, hn, hk, ha, hat⟩ := hc.find_some h
  refine ⟨n, hn, hk, ha, ?_⟩
  have hf := filter_addr_eq_filter_first hc.keys_nodup hc.addrs_nodup hn
  rw [ha, hk] at hf
  have h2 : nodeAt (n :: c.cache_list_.filter (fun m => decide (m.addr ≠ it))) it = some n := by
    simp [nodeAt, List.find?_cons, ha]
  simp only [LRUCache.get, h, spliceFront, hat, h2]
  rw [hf]

/-- A miss of `get` changes nothing. -/
theorem get_miss {c : LRUCache K V} {key : K} (h : mapFind c.cache_map_ key = none) :
    c.get key = some (c, none) := by
  simp [LRUCache.get, h]

/-- The update branch of `put`: the node of the key gets the new value and is
relinked to the front; the index is untouched. -/
theorem put_hit {c : LRUCache K V} (hc : Inv c) {key : K} {it : Nat} (v : V)
    (h : mapFind c.cache_map_ key = some it) :
    ∃ n, n ∈ c.cache_list_ ∧ n.first = key ∧ n.addr = it ∧
      c.put key v = some (LRUCache.mk c.capacity_
        (Node.mk it key v :: c.cache_list_.filter (fun m => decide (m.first ≠ key)))
        c.cache_map_ c.next_addr) := by
  obtain ⟨n, hn, hk, ha, hat⟩ := hc.find_some h
  refine ⟨n, hn, hk, ha, ?_⟩
  have hf := filter_addr_eq_filter_first hc.keys_nodup hc.addrs_nodup hn
  rw [ha, hk] at hf
  have h2 := nodeAt_map_setSecond v hat
  simp only [LRUCache.put, h, setSecond, hat, spliceFront, h2, filter_map_setSecond]
  rw [hf, ha, hk]

/-- The insertion branch of `put`. -/
theorem put_miss {c : LRUCache K V} {key : K} (v : V)
    (h : mapFind c.cache_map_ key = none) :
    c.put key v =
      if c.cache_map_.length ≥ c.capacity_ then (c.evict).map (fun c1 => c1.pushFront key v)
      else some (c.pushFront key v) := by
  simp only [LRUCache.put, h]
  split
  · cases c.evict <;> rfl
  · rfl

theorem Inv.pushFront {c : LRUCache K V} (hc : Inv c) {key : K} (v : V)
    (h : mapFind c.cache_map_ key = none) : Inv (c.pushFront key v) := by
  have hk := hc.find_none h
  refine ⟨?_, ?_, ?_, ?_⟩
  · simp only [LRUCache.pushFront, mapAssign, h, entries, List.map_cons, entryOf]
    exact hc.index.cons _
  · simp only [LRUCache.pushFront, List.map_cons, List.nodup_cons]
    exact ⟨hk, hc.keys_nodup⟩
  · simp only [LRUCache.pushFront, List.map_cons, List.nodup_cons]
    refine ⟨?_, hc.addrs_nodup⟩
    intro hmem
    obtain ⟨n, hn, he⟩ := List.mem_map.1 hmem
    have := hc.addrs_lt n hn
    omega
  · intro n hn
    simp only [LRUCache.pushFront, List.mem_cons] at hn ⊢
    rcases hn with e | hn
    · subst e; simp
    · have := hc.addrs_lt n hn
      omega

/-- The eviction branch, when it is defined, drops the last node of the list
and its key from the index. -/
theorem evict_some {c c1 : LRUCache K V} (h : c.evict = some c1) :
    ∃ last, c.cache_list_ = c1.cache_list_ ++ [last] ∧
      c1 = LRUCache.mk c.capacity_ c.cache_list_.dropLast
        (mapErase c.cache_map_ last.first) c.next_addr := by
  unfold LRUCache.evict at h
  cases hl : c.cache_list_.getLast? with
  | none => simp [hl] at h
  | some last =>
    simp only [hl, Option.some.injEq] at h
    refine ⟨last, ?_, h.symm⟩
    rw [← h]
    exact (List.dropLast_append_getLast? last hl).symm

theorem evict_defined {c : LRUCache K V} (h : c.cache_list_ ≠ []) : ∃ c1, c.evict = some c1 := by
  unfold LRUCache.evict
  cases hl : c.cache_list_.getLast? with
  | none => exact absurd (List.getLast?_eq_none_iff.1 hl) h
  | some last => exact ⟨_, rfl⟩

theorem Inv.evict {c c1 : LRUCache K V} (hc : Inv c) (h : c.evict = some c1) : Inv c1 := by
  obtain ⟨last, hl, rfl⟩ := evict_some h
  simp only at hl
  have hsub : c.cache_list_.dropLast.Sublist c.cache_list_ := List.dropLast_sublist _
  have hkn := hc.keys_nodup
  rw [hl, List.map_append, List.nodup_append] at hkn
  refine ⟨?_, hc.keys_nodup.sublist (hsub.map _), hc.addrs_nodup.sublist (hsub.map _),
    fun n hn => hc.addrs_lt n (hsub.subset hn)⟩
  have h1 : (mapErase c.cache_map_ last.first).Perm
      ((entries c.cache_list_).filter (fun p => decide (p.1 ≠ last.first))) :=
    hc.index.filter _
  refine h1.trans ?_
  rw [hl, entries, List.map_append, List.filter_append]
  have h2 : (List.map entryOf c.cache_list_.dropLast).filter (fun p => decide (p.1 ≠ last.first))
      = List.map entryOf c.cache_list_.dropLast := by
    rw [List.filter_eq_self]
    intro p hp
    obtain ⟨n, hn, rfl⟩ := List.mem_map.1 hp
    have : n.first ≠ last.first := by
      intro e
      exact hkn.2.2 (List.mem_map_of_mem Node.first hn) (by simp [e])
    simp [entryOf, this]
  rw [h2]
  simp [entryOf, entries]

/-- The removal branch of `erase`. -/
theorem erase_hit {c : LRUCache K V} (hc : Inv c) {key : K} {it : Nat}
    (h : mapFind c.cache_map_ key = some it) :
    c.erase key = some (LRUCache.mk c.capacity_
      (c.cache_list_.filter (fun m => decide (m.first ≠ key)))
      (mapErase c.cache_map_ key) c.next_addr) := by
  obtain ⟨n, hn, hk, ha, hat⟩ := hc.find_some h
  have hf := filter_addr_eq_filter_first hc.keys_nodup hc.addrs_nodup hn
  rw [ha, hk] at hf
  simp only [LRUCache.erase, h, listErase, hat]
  rw [hf]

theorem erase_miss {c : LRUCache K V} {key : K} (h : mapFind c.cache_map_ key = none) :
    c.erase key = some c := by
  simp [LRUCache.erase, h]

theorem Inv.erase_state (c : LRUCache K V) (hc : Inv c) (key : K) :
    Inv (LRUCache.mk c.capacity_ (c.cache_list_.filter (fun m => decide (m.first ≠ key)))
      (mapErase c.cache_map_ key) c.next_addr) := by
  have hsub : (c.cache_list_.filter (fun m => decide (m.first ≠ key))).Sublist c.cache_list_ :=
    List.filter_sublist _
  refine ⟨?_, hc.keys_nodup.sublist (hsub.map _), hc.addrs_nodup.sublist (hsub.map _),
    fun n hn => hc.addrs_lt n (hsub.subset hn)⟩
  have h1 : (mapErase c.cache_map_ key).Perm
      ((entries c.cache_list_).filter (fun p => decide (p.1 ≠ key))) :=
    hc.index.filter _
  refine h1.trans ?_
  simp only [entries, List.filter_map]
  exact List.Perm.refl _

theorem Inv.clear (c : LRUCache K V) : Inv c.clear :=
  ⟨by simp [LRUCache.clear, entries], by simp [LRUCache.clear], by simp [LRUCache.clear],
    by simp [LRUCache.clear]⟩

theorem Inv.constructed (capacity : Nat) : Inv (LRUCache.new capacity : LRUCache K V) :=
  ⟨by simp [LRUCache.new, entries], by simp [LRUCache.new], by simp [LRUCache.new],
    by simp [LRUCache.new]⟩

end OpLemmas

section Reachable

variable {K V : Type} [DecidableEq K]

theorem mapFind_mapErase (m : List (K × Nat)) (k2 key : K) :
    mapFind (mapErase m k2) key = if key = k2 then none else mapFind m key := by
  induction m with
  | nil => simp [mapErase, mapFind]
  | cons p rest ih =>
    obtain ⟨k, a⟩ := p
    simp only [mapErase] at ih
    by_cases h1 : k = k2
    · by_cases h2 : key = k2
      · simp [mapErase, List.filter_cons, h1, h2, mapFind] at ih ⊢
        exact ih
      · have h3 : ¬ k2 = key := fun e => h2 e.symm
        simp [mapErase, List.filter_cons, h1, h2, h3, mapFind] at ih ⊢
        exact ih
    · by_cases h2 : key = k2
      · have h3 : ¬ k = key := fun e => h1 (e.trans h2)
        simp [mapErase, List.filter_cons, h1, h2, mapFind] at ih ⊢
        exact ih
      · by_cases h3 : k = key
        · simp [mapErase, List.filter_cons, h1, h2, h3, mapFind]
        · simp [mapErase, List.filter_cons, h1, h2, h3, mapFind] at ih ⊢
          exact ih

theorem Good.initial (capacity : Nat) : Good (LRUCache.new capacity : LRUCache K V) :=
  ⟨Inv.constructed capacity, by simp [LRUCache.new]⟩

theorem length_pushFront {c : LRUCache K V} {key : K} (v : V)
    (h : mapFind c.cache_map_ key = none) :
    (c.pushFront key v).cache_map_.length = c.cache_map_.length + 1 := by
  simp [LRUCache.pushFront, mapAssign, h]

theorem length_evict {c c1 : LRUCache K V} (hc : Inv c) (h : c.evict = some c1) :
    c1.cache_map_.length + 1 = c.cache_map_.length := by
  have h1 := (hc.evict h).length_eq
  obtain ⟨last, hl, _⟩ := evict_some h
  have h2 := hc.length_eq
  rw [hl, List.length_append] at h2
  simp only [List.length_singleton] at h2
  omega

theorem length_filter_first {c : LRUCache K V} (hc : Inv c) {n : Node K V}
    (hn : n ∈ c.cache_list_) :
    (c.cache_list_.filter (fun m => decide (m.first ≠ n.first))).length + 1
      = c.cache_list_.length := by
  have := (perm_cons_filter hc.keys_nodup hn).length_eq
  simpa using this

/-- Every call that is defined keeps the invariant, the bound and the capacity. -/
theorem step_good {c c1 : LRUCache K V} (hc : Good c) {op : Op K V}
    (h : step c op = some c1) : Good c1 ∧ c1.capacity_ = c.capacity_ := by
  cases op with
  | get key =>
    simp only [step] at h
    cases hf : mapFind c.cache_map_ key with
    | none =>
      rw [get_miss hf] at h
      simp only [Option.map_some', Option.some.injEq] at h
      subst h
      exact ⟨hc, rfl⟩
    | some it =>
      obtain ⟨n, hn, hk, _, hg⟩ := get_hit hc.inv hf
      rw [hg] at h
      simp only [Option.map_some', Option.some.injEq] at h
      subst h
      have hi := hc.inv.relink hn n.second
      have e : Node.mk n.addr n.first n.second = n := rfl
      rw [e, hk] at hi
      exact ⟨⟨hi, hc.bounded⟩, rfl⟩
  | put key value =>
    simp only [step] at h
    cases hf : mapFind c.cache_map_ key with
    | some it =>
      obtain ⟨n, hn, hk, ha, hp⟩ := put_hit hc.inv value hf
      rw [hp] at h
      simp only [Option.some.injEq] at h
      subst h
      have := hc.inv.relink hn value
      rw [hk, ha] at this
      exact ⟨⟨this, hc.bounded⟩, rfl⟩
    | none =>
      rw [put_miss value hf] at h
      by_cases hfull : c.cache_map_.length ≥ c.capacity_
      · simp only [hfull, if_true] at h
        cases he : c.evict with
        | none => simp [he] at h
        | some c2 =>
          simp only [he, Option.map_some', Option.some.injEq] at h
          subst h
          have hi2 := hc.inv.evict he
          obtain ⟨last, _, hc2⟩ := evict_some he
          have hf2 : mapFind c2.cache_map_ key = none := by
            rw [hc2]
            simp only
            rw [mapFind_mapErase, hf]
            simp
          have hlen := length_evict hc.inv he
          have hb := hc.bounded
          refine ⟨⟨hi2.pushFront value hf2, ?_⟩, ?_⟩
          · rw [length_pushFront value hf2]
            have : (c2.pushFront key value).capacity_ = c.capacity_ := by
              rw [hc2]; rfl
            omega
          · rw [hc2]; rfl
      · simp only [hfull, if_false, Option.some.injEq] at h
        subst h
        refine ⟨⟨hc.inv.pushFront value hf, ?_⟩, rfl⟩
        rw [length_pushFront value hf]
        have : (c.pushFront key value).capacity_ = c.capacity_ := rfl
        omega
  | erase key =>
    simp only [step] at h
    cases hf : mapFind c.cache_map_ key with
    | none =>
      rw [erase_miss hf] at h
      simp only [Option.some.injEq] at h
      subst h
      exact ⟨hc, rfl⟩
    | some it =>
      rw [erase_hit hc.inv hf] at h
      simp only [Option.some.injEq] at h
      subst h
      refine ⟨⟨hc.inv.erase_state c key, ?_⟩, rfl⟩
      have := List.length_filter_le (fun p : K × Nat => decide (p.1 ≠ key)) c.cache_map_
      have hb := hc.bounded
      simp only [mapErase]
      omega
  | clear =>
    simp only [step, Option.some.injEq] at h
    subst h
    exact ⟨⟨Inv.clear c, by simp [LRUCache.clear]⟩, rfl⟩

/-- With a capacity of at least one, no call on a good state is undefined. -/
theorem step_defined {c : LRUCache K V} (hc : Good c) (hcap : 1 ≤ c.capacity_)
    (op : Op K V) : ∃ c1, step c op = some c1 := by
  cases op with
  | get key =>
    cases hf : mapFind c.cache_map_ key with
    | none => exact ⟨c, by simp [step, get_miss hf]⟩
    | some it =>
      obtain ⟨n, _, _, _, hg⟩ := get_hit hc.inv hf
      exact ⟨_, by simp only [step, hg]; rfl⟩
  | put key value =>
    cases hf : mapFind c.cache_map_ key with
    | some it =>
      obtain ⟨n, _, _, _, hp⟩ := put_hit hc.inv value hf
      exact ⟨_, by simp only [step, hp]; rfl⟩
    | none =>
      by_cases hfull : c.cache_map_.length ≥ c.capacity_
      · have hne : c.cache_list_ ≠ [] := by
          intro e
          have := hc.inv.length_eq
          rw [e] at this
          simp only [List.length_nil] at this
          omega
        obtain ⟨c2, he⟩ := evict_defined hne
        exact ⟨_, by simp only [step, put_miss value hf, hfull, if_true, he, Option.map_some']; rfl⟩
      · exact ⟨_, by simp only [step, put_miss value hf, hfull, if_false]; rfl⟩
  | erase key =>
    cases hf : mapFind c.cache_map_ key with
    | none => exact ⟨c, by simp [step, erase_miss hf]⟩
    | some it => exact ⟨_, by simp only [step, erase_hit hc.inv hf]; rfl⟩
  | clear => exact ⟨_, rfl⟩

theorem run_good {c c1 : LRUCache K V} (hc : Good c) {ops : List (Op K V)}
    (h : run c ops = some c1) : Good c1 ∧ c1.capacity_ = c.capacity_ := by
  induction ops generalizing c with
  | nil =>
    simp only [run, Option.some.injEq] at h
    subst h
    exact ⟨hc, rfl⟩
  | cons op ops ih =>
    simp only [run] at h
    cases hs : step c op with
    | none => simp [hs] at h
    | some c2 =>
      simp only [hs] at h
      obtain ⟨g2, e2⟩ := step_good hc hs
      obtain ⟨g1, e1⟩ := ih g2 h
      exact ⟨g1, e1.trans e2⟩

theorem run_defined {c : LRUCache K V} (hc : Good c) (hcap : 1 ≤ c.capacity_)
    (ops : List (Op K V)) : ∃ c1, run c ops = some c1 := by
  induction ops generalizing c with
  | nil => exact ⟨c, rfl⟩
  | cons op ops ih =>
    obtain ⟨c2, hs⟩ := step_defined hc hcap op
    obtain ⟨g2, e2⟩ := step_good hc hs
    obtain ⟨c1, h1⟩ := ih g2 (by omega)
    exact ⟨c1, by simp only [run, hs, h1]⟩

/-- States reached from the empty cache are good and keep the capacity. -/
theorem reachable_good {capacity : Nat} {ops : List (Op K V)} {s : LRUCache K V}
    (h : run (LRUCache.new capacity) ops = some s) : Good s ∧ s.capacity_ = capacity :=
  run_good (Good.initial capacity) h

/-- A `get` on a key whose node is in the list hits and returns that node's value. -/
theorem get_of_mem {c : LRUCache K V} (hc : Inv c) {n : Node K V} (hn : n ∈ c.cache_list_) :
    ∃ c1, c.get n.first = some (c1, some n.second) := by
  obtain ⟨m, hm, hk, _, hg⟩ := get_hit hc (hc.find_of_mem hn)
  have : m = n := eq_of_first_eq hc.keys_nodup hm hn hk
  subst this
  exact ⟨_, hg⟩

end Reachable

section Recency

variable {K V : Type} [DecidableEq K]

theorem mem_recentDistinct (log : List K) (k : K) : k ∈ recentDistinct log ↔ k ∈ log := by
  induction log with
  | nil => simp [recentDistinct]
  | cons a t ih =>
    simp only [recentDistinct, List.mem_cons, List.mem_filter, ih]
    by_cases e : k = a <;> simp [e]

theorem nodup_recentDistinct (log : List K) : (recentDistinct log).Nodup := by
  induction log with
  | nil => simp [recentDistinct]
  | cons a t ih =>
    simp only [recentDistinct, List.nodup_cons, List.mem_filter]
    exact ⟨by simp, ih.sublist (List.filter_sublist _)⟩

/-- Dropping a key that is not among the first `n` leaves the first `n` alone. -/
theorem take_filter_of_not_mem (k : K) (r : List K) (n : Nat) (h : k ∉ r.take n) :
    (r.filter (fun j => decide (j ≠ k))).take n = r.take n := by
  induction r generalizing n with
  | nil => simp
  | cons a t ih =>
    cases n with
    | zero => simp
    | succ m =>
      simp only [List.take_succ_cons, List.mem_cons, not_or] at h
      have hne : a ≠ k := fun e => h.1 e.symm
      simp only [List.filter_cons, hne, ne_eq, not_false_eq_true, decide_True, if_true,
        List.take_succ_cons]
      rw [ih m h.2]

/-- Dropping a key that is among the first `n + 1` of a duplicate-free list. -/
theorem take_filter_of_mem (k : K) (r : List K) (n : Nat) (hd : r.Nodup)
    (h : k ∈ r.take (n + 1)) :
    (r.filter (fun j => decide (j ≠ k))).take n
      = (r.take (n + 1)).filter (fun j => decide (j ≠ k)) := by
  induction r generalizing n with
  | nil => simp
  | cons a t ih =>
    simp only [List.nodup_cons] at hd
    by_cases e : a = k
    · subst e
      have h1 : t.filter (fun j => decide (j ≠ a)) = t := by
        rw [List.filter_eq_self]
        intro j hj
        have : j ≠ a := fun e => hd.1 (e ▸ hj)
        simp [this]
      have h2 : (t.take n).filter (fun j => decide (j ≠ a)) = t.take n := by
        rw [List.filter_eq_self]
        intro j hj
        have : j ≠ a := fun e => hd.1 (e ▸ List.mem_of_mem_take hj)
        simp [this]
      simp only [ne_eq, decide_not] at h1 h2
      simp [List.filter_cons, h1, h2]
    · simp only [List.take_succ_cons, List.mem_cons] at h
      have hk : k ∈ t.take n := by
        rcases h with h | h
        · exact absurd h.symm e
        · exact h
      cases n with
      | zero => simp at hk
      | succ m =>
        have := ih m hd.2 hk
        simp only [ne_eq, decide_not] at this
        simp [List.filter_cons, e, this]

theorem keys_relink (l : List (Node K V)) (a : Nat) (key : K) (v : V) :
    (Node.mk a key v :: l.filter (fun m => decide (m.first ≠ key))).map Node.first
      = key :: (l.map Node.first).filter (fun j => decide (j ≠ key)) := by
  simp only [List.map_cons, List.filter_map]
  rfl

/-- Touching a key that is in the list: both sides move it to the front. -/
theorem Track.touch_present {c c1 : LRUCache K V} {log puts : List K} (ht : Track c log puts)
    (hcap : 1 ≤ c.capacity_) {key : K} (hg : Good c1) (hcap1 : c1.capacity_ = c.capacity_)
    (hin : key ∈ c.cache_list_.map Node.first)
    (hk : c1.cache_list_.map Node.first
      = key :: (c.cache_list_.map Node.first).filter (fun j => decide (j ≠ key)))
    (puts1 : List K) (hp : ∀ k, k ∈ puts1 ↔ k = key ∨ k ∈ puts) :
    Track c1 (key :: log) puts1 := by
  refine ⟨hg, ?_, ?_⟩
  · rw [hk, hcap1, ht.keys_eq]
    obtain ⟨n, hn⟩ : ∃ n, c.capacity_ = n + 1 := ⟨c.capacity_ - 1, by omega⟩
    rw [ht.keys_eq, hn] at hin
    rw [hn]
    simp only [recentDistinct, List.take_succ_cons]
    rw [take_filter_of_mem key _ n (nodup_recentDistinct log) hin]
  · intro k
    rw [hp k, List.mem_cons, ht.same k]

end Recency

section RecencyRun

variable {K V : Type} [DecidableEq K]

theorem putKeys_cons (op : Op K V) (ops : List (Op K V)) :
    putKeys (op :: ops) = putKeys [op] ++ putKeys ops := by
  cases op <;> simp [putKeys]

/-- One `get` or `put` keeps the recency correspondence. -/
theorem Track.step {c : LRUCache K V} {log puts : List K} (ht : Track c log puts)
    (hcap : 1 ≤ c.capacity_) {op : Op K V} (hop : op.isGetOrPut = true) :
    ∃ c1, step c op = some c1 ∧ c1.capacity_ = c.capacity_ ∧
      Track c1 ((touched c op).toList ++ log) (putKeys [op] ++ puts) := by
  obtain ⟨c1, hs⟩ := step_defined ht.good hcap op
  obtain ⟨hg1, hc1⟩ := step_good ht.good hs
  refine ⟨c1, hs, hc1, ?_⟩
  have hputs : ∀ key, key ∈ c.cache_list_.map Node.first → key ∈ puts := by
    intro key hin
    rw [ht.keys_eq] at hin
    exact (ht.same key).1 ((mem_recentDistinct log key).1 (List.mem_of_mem_take hin))
  cases op with
  | erase key => simp [Op.isGetOrPut] at hop
  | clear => simp [Op.isGetOrPut] at hop
  | get key =>
    simp only [LRU.step] at hs
    cases hf : mapFind c.cache_map_ key with
    | none =>
      have hg := get_miss hf
      rw [hg] at hs
      simp only [Option.map_some', Option.some.injEq] at hs
      subst hs
      simpa [touched, hg, putKeys] using ht
    | some it =>
      obtain ⟨n, hn, hk, _, hg⟩ := get_hit ht.good.inv hf
      rw [hg] at hs
      simp only [Option.map_some', Option.some.injEq] at hs
      have hin : key ∈ c.cache_list_.map Node.first := hk ▸ List.mem_map_of_mem Node.first hn
      have hkeys : c1.cache_list_.map Node.first
          = key :: (c.cache_list_.map Node.first).filter (fun j => decide (j ≠ key)) := by
        rw [← hs, ← keys_relink c.cache_list_ n.addr key n.second, ← hk]
      have := ht.touch_present hcap hg1 hc1 hin hkeys puts
        (fun k => ⟨fun h => Or.inr h, fun h => h.elim (fun e => e ▸ hputs key hin) id⟩)
      simpa [touched, hg, putKeys] using this
  | put key value =>
    simp only [LRU.step] at hs
    cases hf : mapFind c.cache_map_ key with
    | some it =>
      obtain ⟨n, hn, hk, _, hp⟩ := put_hit ht.good.inv value hf
      rw [hp] at hs
      simp only [Option.some.injEq] at hs
      have hin : key ∈ c.cache_list_.map Node.first := hk ▸ List.mem_map_of_mem Node.first hn
      have hkeys : c1.cache_list_.map Node.first
          = key :: (c.cache_list_.map Node.first).filter (fun j => decide (j ≠ key)) := by
        rw [← hs, ← keys_relink c.cache_list_ it key value]
      have := ht.touch_present hcap hg1 hc1 hin hkeys (key :: puts)
        (fun k => List.mem_cons)
      simpa [touched, putKeys] using this
    | none =>
      have hnot : key ∉ (recentDistinct log).take c.capacity_ := by
        rw [← ht.keys_eq]
        exact ht.good.inv.find_none hf
      have hlen : c.cache_map_.length = ((recentDistinct log).take c.capacity_).length := by
        rw [← ht.keys_eq, List.length_map]
        exact ht.good.inv.length_eq
      have hsame : ∀ k, k ∈ key :: log ↔ k ∈ key :: puts := by
        intro k
        simp only [List.mem_cons, ht.same k]
      rw [put_miss value hf] at hs
      simp only [touched, Option.toList, List.singleton_append, putKeys, List.cons_append,
        List.nil_append]
      refine ⟨hg1, ?_, hsame⟩
      rw [hc1]
      by_cases hfull : c.cache_map_.length ≥ c.capacity_
      · simp only [hfull, if_true] at hs
        cases he : c.evict with
        | none => simp [he] at hs
        | some c2 =>
          simp only [he, Option.map_some', Option.some.injEq] at hs
          obtain ⟨last, _, hc2⟩ := evict_some he
          obtain ⟨n, hn⟩ : ∃ n, c.capacity_ = n + 1 := ⟨c.capacity_ - 1, by omega⟩
          have hb := ht.good.bounded
          have hl2 : ((recentDistinct log).take (n + 1)).length = n + 1 := by
            rw [← hn, ← hlen]; omega
          have hdrop : (c.cache_list_.map Node.first).dropLast = (recentDistinct log).take n := by
            rw [ht.keys_eq, hn, List.dropLast_eq_take, hl2, List.take_take]
            simp
          have hnot2 : key ∉ (recentDistinct log).take n := by
            intro hmem
            apply hnot
            rw [hn]
            have : (recentDistinct log).take n
                = ((recentDistinct log).take (n + 1)).take n := by
              rw [List.take_take]; simp
            rw [this] at hmem
            exact List.mem_of_mem_take hmem
          rw [← hs, hc2, hn]
          simp only [LRUCache.pushFront, List.map_cons, List.map_dropLast, hdrop, recentDistinct,
            List.take_succ_cons]
          rw [take_filter_of_not_mem key _ n hnot2]
      · simp only [hfull, if_false, Option.some.injEq] at hs
        have hlt : ((recentDistinct log).take c.capacity_).length < c.capacity_ := by
          rw [← hlen]; omega
        rw [List.length_take] at hlt
        have hle : (recentDistinct log).length ≤ c.capacity_ := by omega
        have hall : (recentDistinct log).take c.capacity_ = recentDistinct log :=
          List.take_of_length_le hle
        rw [hall] at hnot
        have hfil : (recentDistinct log).filter (fun j => decide (j ≠ key))
            = recentDistinct log := by
          rw [List.filter_eq_self]
          intro j hj
          have : j ≠ key := fun e => hnot (e ▸ hj)
          simp [this]
        rw [← hs]
        simp only [LRUCache.pushFront, List.map_cons, recentDistinct, hfil, ht.keys_eq, hall]
        symm
        apply List.take_of_length_le
        simp only [List.length_cons]
        omega

/-- A sequence of `get` and `put` calls keeps the recency correspondence. -/
theorem Track.run {c : LRUCache K V} {log puts : List K} (ht : Track c log puts)
    (hcap : 1 ≤ c.capacity_) (ops : List (Op K V)) (hops : ∀ op ∈ ops, op.isGetOrPut = true) :
    ∃ s puts1, run c ops = some s ∧ s.capacity_ = c.capacity_ ∧
      Track s (touchLog c log ops) puts1 ∧
      ∀ k, k ∈ puts1 ↔ k ∈ putKeys ops ∨ k ∈ puts := by
  induction ops generalizing c log puts with
  | nil => exact ⟨c, puts, rfl, rfl, ht, by simp [putKeys]⟩
  | cons op ops ih =>
    obtain ⟨c1, hs, hc1, ht1⟩ := ht.step hcap (hops op (List.mem_cons_self _ _))
    obtain ⟨s, puts1, hr, hcs, hts, hp⟩ :=
      ih ht1 (by omega) (fun o ho => hops o (List.mem_cons_of_mem _ ho))
    refine ⟨s, puts1, ?_, hcs.trans hc1, ?_, ?_⟩
    · simp only [LRU.run, hs, hr]
    · simpa only [touchLog, hs] using hts
    · intro k
      rw [hp k, putKeys_cons op ops, List.mem_append, List.mem_append]
      tauto

/-- C1: for every capacity of at least 1 and every sequence of `get` and `put`
calls on an empty cache, the run is defined, the recency list holds, front to
back, exactly the `min(C, d)` most recently touched distinct keys (`d` the
number of distinct keys put), and these are the keys of the index. -/
theorem C1_most_recently_touched (capacity : Nat) (hcap : 1 ≤ capacity)
    (ops : List (Op K V)) (hops : ∀ op ∈ ops, op.isGetOrPut = true) :
    ∃ s, run (LRUCache.new capacity) ops = some s ∧
      s.cache_list_.map Node.first = mostRecent capacity ops (min capacity (distinctPuts ops)) ∧
      (∀ k, k ∈ s.keys ↔ k ∈ mostRecent capacity ops (min capacity (distinctPuts ops))) ∧
      s.size = min capacity (distinctPuts ops) := by
  have h0 : Track (LRUCache.new capacity : LRUCache K V) [] [] :=
    ⟨Good.initial capacity, by simp [LRUCache.new, recentDistinct], fun _ => Iff.rfl⟩
  obtain ⟨s, puts1, hr, hcs, hts, hp⟩ := h0.run hcap ops hops
  have hcs2 : s.capacity_ = capacity := hcs
  have hperm : (recentDistinct (touchLog (LRUCache.new capacity) [] ops)).Perm
      (putKeys ops).dedup := by
    rw [List.perm_ext_iff_of_nodup (nodup_recentDistinct _) (List.nodup_dedup _)]
    intro k
    rw [mem_recentDistinct, hts.same k, hp k, List.mem_dedup]
    simp
  have hd : distinctPuts ops
      = (recentDistinct (touchLog (LRUCache.new capacity) [] ops)).length := by
    rw [distinctPuts, hperm.length_eq]
  have htake : mostRecent capacity ops (min capacity (distinctPuts ops))
      = (recentDistinct (touchLog (LRUCache.new capacity) [] ops)).take capacity := by
    rw [mostRecent, hd]
    rcases Nat.le_total capacity
      (recentDistinct (touchLog (LRUCache.new capacity) [] ops)).length with h | h
    · rw [Nat.min_eq_left h]
    · rw [Nat.min_eq_right h, List.take_of_length_le h, List.take_of_length_le (Nat.le_refl _)]
  have hkeys : s.cache_list_.map Node.first
      = mostRecent capacity ops (min capacity (distinctPuts ops)) := by
    rw [htake, hts.keys_eq, hcs2]
  refine ⟨s, hr, hkeys, ?_, ?_⟩
  · intro k
    rw [← hkeys]
    have hk : k ∈ s.cache_map_.map Prod.fst ↔ k ∈ (entries s.cache_list_).map Prod.fst :=
      (hts.good.inv.index.map Prod.fst).mem_iff
    rw [entries_keys] at hk
    exact hk
  · have := congrArg List.length hkeys
    rw [List.length_map, ← hts.good.inv.length_eq] at this
    rw [LRUCache.size, this, htake, List.length_take, hd]

/-- C1 (witness): capacity 2, `put(x,1)`, `put(y,2)`, `get(x)`, `put(z,3)`
leaves exactly z and x; y is absent. -/
theorem C1_most_recently_touched_witness :
    ∃ s : LRUCache String Nat,
      run (LRUCache.new 2) [Op.put "x" 1, Op.put "y" 2, Op.get "x", Op.put "z" 3] = some s ∧
      s.cache_list_.map Node.first = ["z", "x"] ∧
      (∀ k, k ∈ s.keys ↔ k ∈ ["z", "x"]) ∧ "y" ∉ s.keys ∧ s.size = 2 := by
  obtain ⟨s, hr, hk, hm, hsz⟩ := C1_most_recently_touched 2 (by decide)
    ([Op.put "x" 1, Op.put "y" 2, Op.get "x", Op.put "z" 3] : List (Op String Nat)) (by decide)
  have e : mostRecent 2
      ([Op.put "x" 1, Op.put "y" 2, Op.get "x", Op.put "z" 3] : List (Op String Nat))
      (min 2 (distinctPuts
        ([Op.put "x" 1, Op.put "y" 2, Op.get "x", Op.put "z" 3] : List (Op String Nat))))
      = ["z", "x"] := by decide
  rw [e] at hk hm
  refine ⟨s, hr, hk, hm, ?_, ?_⟩
  · rw [hm]; decide
  · rw [hsz]; decide

end RecencyRun

section Claims

variable {K V : Type} [DecidableEq K]

/-- C2: on a cache constructed with capacity 0 the first `put` takes the
eviction branch on an empty list, where stepping back from `end()` and
`pop_back` are undefined, so no sequence of calls that starts with a `put`
yields a state, let alone one with `size() <= 0`. -/
theorem C2_put_undefined_at_capacity_zero (key : K) (value : V) (ops : List (Op K V)) :
    (LRUCache.new 0 : LRUCache K V).put key value = none ∧
    run (LRUCache.new 0 : LRUCache K V) (Op.put key value :: ops) = none := by
  have h : (LRUCache.new 0 : LRUCache K V).put key value = none := by
    simp [LRUCache.put, LRUCache.new, mapFind, LRUCache.evict]
  exact ⟨h, by simp [run, step, h]⟩

/-- C3 (counterexample): the cache constructed with capacity 0 is a reachable
state on which `put("a", 1)` is undefined, so it is not followed by a hit. -/
theorem C3_counterexample :
    ∃ s : LRUCache String Nat, run (LRUCache.new 0) [] = some s ∧
      ¬ ∃ s1 s2, s.put "a" 1 = some s1 ∧ s1.get "a" = some (s2, some 1) := by
  refine ⟨LRUCache.new 0, rfl, ?_⟩
  rintro ⟨s1, s2, h, _⟩
  have : (LRUCache.new 0 : LRUCache String Nat).put "a" 1 = none := by decide
  rw [this] at h
  exact Option.noConfusion h

/-- C3 (amended): in every state reachable from an empty cache of capacity at
least 1, `put(k, v)` is defined and a `get(k)` immediately after it hits and
returns `v`, whether `k` was present or newly inserted. -/
theorem C3_get_after_put (capacity : Nat) (hcap : 1 ≤ capacity) (ops : List (Op K V))
    (s : LRUCache K V) (h : run (LRUCache.new capacity) ops = some s) (key : K) (value : V) :
    ∃ s1 s2, s.put key value = some s1 ∧ s1.get key = some (s2, some value) := by
  obtain ⟨hs, hcs⟩ := reachable_good h
  obtain ⟨s1, h1⟩ := step_defined hs (by omega) (Op.put key value)
  obtain ⟨g1, _⟩ := step_good hs h1
  simp only [step] at h1
  refine ⟨s1, ?_⟩
  have hmem : Node.mk (s1.cache_list_.head?.elim 0 Node.addr) key value ∈ s1.cache_list_ := by
    cases hf : mapFind s.cache_map_ key with
    | some it =>
      obtain ⟨n, _, _, _, hp⟩ := put_hit hs.inv value hf
      rw [hp] at h1
      simp only [Option.some.injEq] at h1
      subst h1
      simp
    | none =>
      rw [put_miss value hf] at h1
      by_cases hfull : s.cache_map_.length ≥ s.capacity_
      · simp only [hfull, if_true] at h1
        cases he : s.evict with
        | none => simp [he] at h1
        | some c2 =>
          simp only [he, Option.map_some', Option.some.injEq] at h1
          subst h1
          simp [LRUCache.pushFront]
      · simp only [hfull, if_false, Option.some.injEq] at h1
        subst h1
        simp [LRUCache.pushFront]
  obtain ⟨s2, h2⟩ := get_of_mem g1.inv hmem
  exact ⟨s2, h1, h2⟩

/-- C3 (witness): capacity 1, after `put("a", 1)`, a `put("b", 2)` evicts and a
`get("b")` returns 2. -/
theorem C3_get_after_put_witness :
    ∃ s1 s2, (LRUCache.mk 1 [Node.mk 0 "a" 1] [("a", 0)] 1 : LRUCache String Nat).put "b" 2
        = some s1 ∧ s1.get "b" = some (s2, some 2) :=
  C3_get_after_put 1 (by decide) [Op.put "a" 1] _ (by decide) "b" 2

/-- C4: in every state reachable from an empty cache, `erase(k)` is defined;
a `get(k)` after it misses; when `k` was present, exactly its node is gone
from the recency list (all other nodes keep their value and relative order),
every other key keeps its index entry and its value, and `size()` dropped by
one; when `k` was absent the state is unchanged. -/
theorem C4_erase (capacity : Nat) (ops : List (Op K V)) (s : LRUCache K V)
    (h : run (LRUCache.new capacity) ops = some s) (key : K) :
    ∃ s1, s.erase key = some s1 ∧
      s1.get key = some (s1, none) ∧
      s1.cache_list_ = s.cache_list_.filter (fun n => decide (n.first ≠ key)) ∧
      (∀ k, k ≠ key → mapFind s1.cache_map_ k = mapFind s.cache_map_ k) ∧
      (∀ k, k ≠ key → (s1.get k).map Prod.snd = (s.get k).map Prod.snd) ∧
      (mapFind s.cache_map_ key ≠ none → s1.size + 1 = s.size) ∧
      (mapFind s.cache_map_ key = none → s1 = s) := by
  obtain ⟨hs, _⟩ := reachable_good h
  cases hf : mapFind s.cache_map_ key with
  | none =>
    refine ⟨s, erase_miss hf, get_miss hf, ?_, fun _ _ => rfl, fun _ _ => rfl,
      fun hne => absurd rfl hne, fun _ => rfl⟩
    symm
    rw [List.filter_eq_self]
    intro n hn
    have := hs.inv.find_none hf
    have hne : n.first ≠ key := fun e => this (e ▸ List.mem_map_of_mem Node.first hn)
    simp [hne]
  | some it =>
    have hi1 := hs.inv.erase_state s key
    have hfind : ∀ k, k ≠ key →
        mapFind (mapErase s.cache_map_ key) k = mapFind s.cache_map_ k := by
      intro k hk
      rw [mapFind_mapErase]
      simp [hk]
    refine ⟨_, erase_hit hs.inv hf, ?_, rfl, hfind, ?_, ?_, fun hne => Option.noConfusion hne⟩
    · apply get_miss
      simp only
      rw [mapFind_mapErase]
      simp
    · intro k hk
      cases hk2 : mapFind s.cache_map_ k with
      | none =>
        have h1 : mapFind (mapErase s.cache_map_ key) k = none := by rw [hfind k hk, hk2]
        rw [get_miss hk2, get_miss h1]
        rfl
      | some it2 =>
        have h1 : mapFind (mapErase s.cache_map_ key) k = some it2 := by rw [hfind k hk, hk2]
        obtain ⟨n, hn, hnk, _, hg⟩ := get_hit hs.inv hk2
        obtain ⟨m, hm, hmk, _, hg1⟩ := get_hit hi1 h1
        have hm2 : m ∈ s.cache_list_ := (List.mem_filter.1 hm).1
        have : m = n := eq_of_first_eq hs.inv.keys_nodup hm2 hn (hmk.trans hnk.symm)
        subst this
        rw [hg, hg1]
        rfl
    · intro _
      obtain ⟨n, hn, hk, _, _⟩ := hs.inv.find_some hf
      have h1 := length_filter_first hs.inv hn
      rw [hk] at h1
      have h2 := hi1.length_eq
      have h3 := hs.inv.length_eq
      simp only [LRUCache.size] at h2 ⊢
      omega

/-- C4 (witness): erasing "x" from the cache holding y (front) and x. -/
theorem C4_erase_witness :
    ∃ s1, (LRUCache.mk 2 [Node.mk 1 "y" 2, Node.mk 0 "x" 1] [("y", 1), ("x", 0)] 2
        : LRUCache String Nat).erase "x" = some s1 ∧
      s1.get "x" = some (s1, none) ∧
      s1.cache_list_ = [Node.mk 1 "y" 2, Node.mk 0 "x" 1].filter
        (fun n => decide (n.first ≠ "x")) ∧
      (∀ k, k ≠ "x" → mapFind s1.cache_map_ k = mapFind [("y", 1), ("x", 0)] k) ∧
      (∀ k, k ≠ "x" → (s1.get k).map Prod.snd =
        ((LRUCache.mk 2 [Node.mk 1 "y" 2, Node.mk 0 "x" 1] [("y", 1), ("x", 0)] 2
          : LRUCache String Nat).get k).map Prod.snd) ∧
      (mapFind [("y", 1), ("x", 0)] "x" ≠ none → s1.size + 1 = 2) ∧
      (mapFind [("y", 1), ("x", 0)] "x" = none → s1 = LRUCache.mk 2
        [Node.mk 1 "y" 2, Node.mk 0 "x" 1] [("y", 1), ("x", 0)] 2) :=
  C4_erase 2 [Op.put "x" 1, Op.put "y" 2] _ (by decide) "x"

/-- C9: in every state reachable from an empty cache by `get`, `put`, `erase`
and `clear`, no key occurs twice in the recency list or in the index, the
keys of the index are the keys of the list, and every index entry holds a
valid iterator to the list node with its own key. -/
theorem C9_index_consistent (capacity : Nat) (ops : List (Op K V)) (s : LRUCache K V)
    (h : run (LRUCache.new capacity) ops = some s) :
    (s.cache_list_.map Node.first).Nodup ∧
    (s.cache_map_.map Prod.fst).Nodup ∧
    (∀ k, k ∈ s.keys ↔ k ∈ s.cache_list_.map Node.first) ∧
    (∀ p ∈ s.cache_map_, ∃ n, nodeAt s.cache_list_ p.2 = some n ∧ n.first = p.1) ∧
    (∀ n ∈ s.cache_list_, mapFind s.cache_map_ n.first = some n.addr) ∧
    s.size = s.cache_list_.length := by
  obtain ⟨hs, _⟩ := reachable_good h
  refine ⟨hs.inv.keys_nodup, hs.inv.map_keys_nodup, ?_, ?_, fun n hn => hs.inv.find_of_mem hn,
    hs.inv.length_eq⟩
  · intro k
    have hk : k ∈ s.cache_map_.map Prod.fst ↔ k ∈ (entries s.cache_list_).map Prod.fst :=
      (hs.inv.index.map Prod.fst).mem_iff
    rw [entries_keys] at hk
    exact hk
  · intro p hp
    have hm := hs.inv.index.mem_iff.1 hp
    simp only [entries, List.mem_map] at hm
    obtain ⟨n, hn, rfl⟩ := hm
    exact ⟨n, nodeAt_of_mem hs.inv.addrs_nodup hn, rfl⟩

/-- C9 (witness): the state after `put x`, `put y`, `get x`, `erase y`, `put z`. -/
theorem C9_index_consistent_witness :
    ([Node.mk 2 "z" 3, Node.mk 0 "x" 1].map Node.first).Nodup ∧
    ([("z", 2), ("x", 0)].map Prod.fst).Nodup ∧
    (∀ k, k ∈ (LRUCache.mk 2 [Node.mk 2 "z" 3, Node.mk 0 "x" 1] [("z", 2), ("x", 0)] 3
        : LRUCache String Nat).keys ↔ k ∈ [Node.mk 2 "z" 3, Node.mk 0 "x" 1].map Node.first) ∧
    (∀ p ∈ [("z", 2), ("x", 0)],
      ∃ n, nodeAt [Node.mk 2 "z" 3, Node.mk 0 "x" 1] p.2 = some n ∧ n.first = p.1) ∧
    (∀ n ∈ [Node.mk 2 "z" 3, Node.mk 0 "x" 1],
      mapFind [("z", 2), ("x", 0)] n.first = some n.addr) ∧
    (LRUCache.mk 2 [Node.mk 2 "z" 3, Node.mk 0 "x" 1] [("z", 2), ("x", 0)] 3
      : LRUCache String Nat).size = 2 :=
  C9_index_consistent 2
    [Op.put "x" 1, Op.put "y" 2, Op.get "x", Op.erase "y", Op.put "z" 3]
    (LRUCache.mk 2 [Node.mk 2 "z" 3, Node.mk 0 "x" 1] [("z", 2), ("x", 0)] 3) (by decide)

/-- C10: in every state reachable from an empty cache of capacity at least 1,
when `put` is called with a key that is not in the index while the index
size is at least the capacity, the recency list is non-empty, the eviction
branch is defined, and it removes exactly the last node of the list from the
list and that node's key (which was in the index) from the index; `put` then
inserts the new key in front. -/
theorem C10_eviction_defined (capacity : Nat) (hcap : 1 ≤ capacity) (ops : List (Op K V))
    (s : LRUCache K V) (h : run (LRUCache.new capacity) ops = some s) (key : K) (value : V)
    (hnew : mapFind s.cache_map_ key = none) (hfull : s.cache_map_.length ≥ s.capacity_) :
    ∃ last s1, s.cache_list_.getLast? = some last ∧
      s.evict = some s1 ∧
      s.cache_list_ = s1.cache_list_ ++ [last] ∧
      mapFind s.cache_map_ last.first = some last.addr ∧
      mapFind s1.cache_map_ last.first = none ∧
      (∀ k, k ≠ last.first → mapFind s1.cache_map_ k = mapFind s.cache_map_ k) ∧
      s1.size + 1 = s.size ∧
      s.put key value = some (s1.pushFront key value) := by
  obtain ⟨hs, hcs⟩ := reachable_good h
  have hne : s.cache_list_ ≠ [] := by
    intro e
    have := hs.inv.length_eq
    rw [e] at this
    simp only [List.length_nil] at this
    omega
  obtain ⟨s1, he⟩ := evict_defined hne
  obtain ⟨last, hl, hs1⟩ := evict_some he
  have hlast : s.cache_list_.getLast? = some last := by
    rw [hl]; simp
  have hmem : last ∈ s.cache_list_ := List.mem_of_getLast?_eq_some hlast
  have hmap : s1.cache_map_ = mapErase s.cache_map_ last.first := by rw [hs1]
  refine ⟨last, s1, hlast, he, hl, hs.inv.find_of_mem hmem, ?_, ?_, length_evict hs.inv he, ?_⟩
  · rw [hmap, mapFind_mapErase]; simp
  · intro k hk
    rw [hmap, mapFind_mapErase]; simp [hk]
  · rw [put_miss value hnew]
    simp [hfull, he]

/-- C10 (witness): capacity 2 holding y (front) and x; `put("z", 3)` evicts x. -/
theorem C10_eviction_defined_witness :
    ∃ last s1, [Node.mk 1 "y" 2, Node.mk 0 "x" 1].getLast? = some last ∧
      (LRUCache.mk 2 [Node.mk 1 "y" 2, Node.mk 0 "x" 1] [("y", 1), ("x", 0)] 2
        : LRUCache String Nat).evict = some s1 ∧
      [Node.mk 1 "y" 2, Node.mk 0 "x" 1] = s1.cache_list_ ++ [last] ∧
      mapFind [("y", 1), ("x", 0)] last.first = some last.addr ∧
      mapFind s1.cache_map_ last.first = none ∧
      (∀ k, k ≠ last.first → mapFind s1.cache_map_ k = mapFind [("y", 1), ("x", 0)] k) ∧
      s1.size + 1 = 2 ∧
      (LRUCache.mk 2 [Node.mk 1 "y" 2, Node.mk 0 "x" 1] [("y", 1), ("x", 0)] 2
        : LRUCache String Nat).put "z" 3 = some (s1.pushFront "z" 3) :=
  C10_eviction_defined 2 (by decide) [Op.put "x" 1, Op.put "y" 2]
    (LRUCache.mk 2 [Node.mk 1 "y" 2, Node.mk 0 "x" 1] [("y", 1), ("x", 0)] 2) (by decide) "z" 3
    (by decide) (by decide)

end Claims

end LRU

namespace Storage

section ServerLemmas

variable {σ : Type}

theorem create_replicas_sent (fmi : FileManager σ) (w : World σ) (filename : Bytes)
    (peers : List Bytes) :
    (create_replicas fmi w filename peers).sent = w.sent ∧
    (create_replicas fmi w filename peers).closed = w.closed ∧
    ∃ more, (create_replicas fmi w filename peers).calls = w.calls ++ more := by
  induction peers generalizing w with
  | nil => exact ⟨rfl, rfl, [], by simp [create_replicas]⟩
  | cons node rest ih =>
    obtain ⟨h1, h2, more, h3⟩ := ih (World.mk (fmi.add_replica w.fm filename node).1
      (w.calls ++ [Call.add_replica filename node]) w.sent w.closed)
    refine ⟨h1, h2, Call.add_replica filename node :: more, ?_⟩
    simp only [create_replicas, h3, List.append_assoc, List.singleton_append]

theorem delete_replicas_sent (fmi : FileManager σ) (w : World σ) (filename : Bytes)
    (peers : List Bytes) :
    (delete_replicas fmi w filename peers).sent = w.sent ∧
    (delete_replicas fmi w filename peers).closed = w.closed ∧
    ∃ more, (delete_replicas fmi w filename peers).calls = w.calls ++ more := by
  induction peers generalizing w with
  | nil => exact ⟨rfl, rfl, [], by simp [delete_replicas]⟩
  | cons node rest ih =>
    obtain ⟨h1, h2, more, h3⟩ := ih (World.mk (fmi.remove_replica w.fm filename node).1
      (w.calls ++ [Call.remove_replica filename node]) w.sent w.closed)
    refine ⟨h1, h2, Call.remove_replica filename node :: more, ?_⟩
    simp only [delete_replicas, h3, List.append_assoc, List.singleton_append]

/-- A field that holds a NUL is read up to that NUL, whatever follows it in
memory. -/
theorem c_str_of_nul (buffer after : Bytes) (h : NUL ∈ buffer) :
    c_str buffer after = buffer.takeWhile (fun ch => decide (ch ≠ NUL)) := by
  induction buffer with
  | nil => simp at h
  | cons a t ih =>
    by_cases e : a = NUL
    · simp [c_str, List.takeWhile_cons, e]
    · have ht : NUL ∈ t := by
        rcases List.mem_cons.1 h with h | h
        · exact absurd h.symm e
        · exact h
      have := ih ht
      simp only [c_str, ne_eq, decide_not] at this
      simp [c_str, List.takeWhile_cons, e, this]

theorem retrieve_ne_store : ¬ RETRIEVE_FILE = STORE_FILE := by decide

theorem delete_ne_store : ¬ DELETE_FILE = STORE_FILE := by decide

theorem delete_ne_retrieve : ¬ DELETE_FILE = RETRIEVE_FILE := by decide

end ServerLemmas

section ServerClaims

variable {σ : Type}

end ServerClaims

section ServerClaims2

variable {σ : Type}

end ServerClaims2

section ServerClaims3

variable {σ : Type}

set_option maxRecDepth 100000 in
/-- C8 (counterexample): a RETRIEVE request whose 256-byte filename field
holds no NUL is not rejected: `retrieve_file` is called with the 256 chars of
the field extended by the byte that follows it in memory, and the answer is
`success = true` with the file's bytes. -/
theorem C8_counterexample :
    unterminatedRetrieve.bytes_read = sizeof_StorageRequest ∧
    unterminatedRetrieve.request.filename.length = 256 ∧
    NUL ∉ unterminatedRetrieve.request.filename ∧
    (handle_client memoryFileManager [] (World.init longNameFiles) unterminatedRetrieve).calls
      = [Call.retrieve_file (List.replicate 256 'a' ++ ['b'])] ∧
    (handle_client memoryFileManager [] (World.init longNameFiles) unterminatedRetrieve).sent
      = [Write.header (StorageResponse.mk true "File retrieved successfully" 5),
          Write.payload "hello".toList] := by
  refine ⟨by decide, by decide, by decide, by decide, by decide⟩

/-- C8 (amended): the dispatcher contains no filename check and never rejects
a request for its filename.  For every request whose filename field holds a
NUL, RETRIEVE, DELETE and a STORE with complete payload call their
`FileManager` operation first, on exactly the chars of the field before the
first NUL, and the `success` flag of the one response header is the result of
that call. -/
theorem C8_filename_unchecked (fmi : FileManager σ) (peers : List Bytes) (fm : σ)
    (conn : Connection) (hfull : conn.bytes_read = sizeof_StorageRequest)
    (hnul : NUL ∈ conn.request.filename) :
    (conn.request.op = RETRIEVE_FILE →
      (handle_client fmi peers (World.init fm) conn).calls = [Call.retrieve_file
        (conn.request.filename.takeWhile (fun ch => decide (ch ≠ NUL)))] ∧
      ∃ hdr, (handle_client fmi peers (World.init fm) conn).sent.head? = some (Write.header hdr) ∧
        hdr.success = (fmi.retrieve_file fm
          (conn.request.filename.takeWhile (fun ch => decide (ch ≠ NUL)))).2.1) ∧
    (conn.request.op = DELETE_FILE →
      (handle_client fmi peers (World.init fm) conn).calls.head? = some (Call.delete_file
        (conn.request.filename.takeWhile (fun ch => decide (ch ≠ NUL)))) ∧
      ∃ hdr, (handle_client fmi peers (World.init fm) conn).sent = [Write.header hdr] ∧
        hdr.success = (fmi.delete_file fm
          (conn.request.filename.takeWhile (fun ch => decide (ch ≠ NUL)))).2) ∧
    (conn.request.op = STORE_FILE →
      ∀ data, receive_payload conn.request.data_size conn.payload [] = some data →
      (handle_client fmi peers (World.init fm) conn).calls.head? = some (Call.store_file
        (conn.request.filename.takeWhile (fun ch => decide (ch ≠ NUL))) data) ∧
      ∃ hdr, (handle_client fmi peers (World.init fm) conn).sent = [Write.header hdr] ∧
        hdr.success = (fmi.store_file fm
          (conn.request.filename.takeWhile (fun ch => decide (ch ≠ NUL))) data).2) := by
  have hc := c_str_of_nul conn.request.filename conn.request.after hnul
  simp only [ne_eq, decide_not] at hc ⊢
  refine ⟨fun hop => ?_, fun hop => ?_, fun hop data hp => ?_⟩
  · cases hs : (fmi.retrieve_file fm
        (conn.request.filename.takeWhile (fun ch => !decide (ch = NUL)))).2.1 with
    | false =>
      refine ⟨?_, StorageResponse.mk false "File not found" 0, ?_, rfl⟩ <;>
      simp [handle_client, hfull, hop, retrieve_ne_store, handle_retrieve_request, hc, hs, close,
        send_response, World.init]
    | true =>
      refine ⟨?_, StorageResponse.mk true "File retrieved successfully" (fmi.retrieve_file fm
        (conn.request.filename.takeWhile (fun ch => !decide (ch = NUL)))).2.2.length, ?_, rfl⟩ <;>
      simp [handle_client, hfull, hop, retrieve_ne_store, handle_retrieve_request, hc, hs, close,
        send_response, send, World.init]
  · cases hs : (fmi.delete_file fm
        (conn.request.filename.takeWhile (fun ch => !decide (ch = NUL)))).2 with
    | false =>
      refine ⟨?_, StorageResponse.mk false "Failed to delete file" 0, ?_, rfl⟩ <;>
      simp [handle_client, hfull, hop, delete_ne_store, delete_ne_retrieve, handle_delete_request,
        hc, hs, close, send_response, World.init]
    | true =>
      obtain ⟨h1, _, more, h3⟩ := delete_replicas_sent fmi
        (World.mk (fmi.delete_file fm
          (conn.request.filename.takeWhile (fun ch => !decide (ch = NUL)))).1
          [Call.delete_file (conn.request.filename.takeWhile (fun ch => !decide (ch = NUL)))]
          [] false)
        (conn.request.filename.takeWhile (fun ch => !decide (ch = NUL))) peers
      refine ⟨?_, StorageResponse.mk true "File deleted successfully" 0, ?_, rfl⟩ <;>
      simp [handle_client, hfull, hop, delete_ne_store, delete_ne_retrieve, handle_delete_request,
        hc, hs, close, send_response, World.init, h1, h3]
  · cases hs : (fmi.store_file fm
        (conn.request.filename.takeWhile (fun ch => !decide (ch = NUL))) data).2 with
    | false =>
      refine ⟨?_, StorageResponse.mk false "Failed to store file" 0, ?_, rfl⟩ <;>
      simp [handle_client, hfull, hop, handle_store_request, hp, hc, hs, close, send_response,
        World.init]
    | true =>
      obtain ⟨h1, _, more, h3⟩ := create_replicas_sent fmi
        (World.mk (fmi.store_file fm
          (conn.request.filename.takeWhile (fun ch => !decide (ch = NUL))) data).1
          [Call.store_file (conn.request.filename.takeWhile (fun ch => !decide (ch = NUL))) data]
          [] false)
        (conn.request.filename.takeWhile (fun ch => !decide (ch = NUL))) peers
      refine ⟨?_, StorageResponse.mk true "File stored successfully" data.length, ?_, rfl⟩ <;>
      simp [handle_client, hfull, hop, handle_store_request, hp, hc, hs, close, send_response,
        World.init, h1, h3]

set_option maxRecDepth 100000 in
/-- C8 (witness): the complete STORE of `b.txt` calls `store_file` on `b.txt`
and reports its success. -/
theorem C8_filename_unchecked_witness :
    (handle_client memoryFileManager [] (World.init sampleFiles) completeStore).calls.head?
      = some (Call.store_file "b.txt".toList "abcde".toList) ∧
    ∃ hdr, (handle_client memoryFileManager [] (World.init sampleFiles) completeStore).sent
        = [Write.header hdr] ∧ hdr.success = true := by
  have h := (C8_filename_unchecked memoryFileManager [] sampleFiles completeStore (by decide)
    (by decide)).2.2 (by decide) "abcde".toList (by decide)
  have e : completeStore.request.filename.takeWhile (fun ch => decide (ch ≠ NUL))
      = "b.txt".toList := by decide
  rw [e] at h
  exact h

end ServerClaims3

end Storage
